import Mathlib

/-!
Verification of the streaming OTLP log ingestion and aggregation pipeline of
the otel-collector-viewer repository.  The definitions below are a shallow
embedding of the TypeScript source:

* `src/app/core/utils/otlp-log-helpers.ts` (severity, timestamp, id codecs),
* `src/app/log-parse.worker.ts` (format detection, chunked parsing,
  cancellation),
* `src/app/core/services/log-viewer-state.service.ts` (aggregation store and
  filter pipeline),
* `src/app/core/models/otlp-log.model.ts` (data model).

Modelling conventions: JS strings are Lean `String` (`charCodeAt` is the
character code, faithful for the Basic Multilingual Plane), JS numbers that
hold integers are `Int`/`Nat`, `Date` values are their millisecond epoch
value as `Int`, `undefined`/`null` is `Option.none`.  Calls into the JS
runtime that are not part of this repository (`JSON.parse`, the ISO-8601
`Date` constructor) are abstracted as explicit oracle parameters so that
every theorem quantifies over their behaviour.  Wall-clock quantities
(`elapsedMs`, `loadedAt`) are omitted from events and metadata.
-/

set_option maxRecDepth 16384

namespace OtelViewer

/-- Normalized severity enum from `otlp-log.model.ts` (`SeverityLevel`). -/
inductive SeverityLevel where
  | TRACE | DEBUG | INFO | WARN | ERROR | FATAL
deriving DecidableEq, Repr

/-- HTTP status category from `otlp-log.model.ts` (`HttpStatusCategory`). -/
inductive HttpStatusCategory where
  | c2xx | c3xx | c4xx | c5xx
deriving DecidableEq, Repr

/-- JS `String.prototype.includes`: `needle` occurs contiguously in `hay`.
Implemented over character lists. -/
def containsSub (hay needle : List Char) : Bool :=
  hay.tails.any (fun t => needle.isPrefixOf t)

/-- JS `toUpperCase`, modelled per character (faithful for ASCII, which is
all the comparisons in `normalizeSeverity` use). -/
def upperList (s : String) : List Char :=
  s.toList.map Char.toUpper

/-- JS `toLowerCase`, modelled per character (faithful for ASCII). -/
def lowerList (s : String) : List Char :=
  s.toList.map Char.toLower

/-- Text fallback of `normalizeSeverity` (otlp-log-helpers.ts lines 71-80):
case-insensitive substring match in priority order, default INFO.  The
guard on the empty string models JS truthiness of `severityText`. -/
def severityFromText (text : Option String) : SeverityLevel :=
  match text with
  | none => .INFO
  | some t =>
    if t = "" then .INFO
    else
      let u := upperList t
      if containsSub u "TRACE".toList then .TRACE
      else if containsSub u "DEBUG".toList then .DEBUG
      else if containsSub u "INFO".toList then .INFO
      else if containsSub u "WARN".toList then .WARN
      else if containsSub u "ERROR".toList || containsSub u "ERR".toList then .ERROR
      else if containsSub u "FATAL".toList || containsSub u "CRITICAL".toList then .FATAL
      else .INFO

/-- The `SEVERITY_MAP` table of otlp-log-helpers.ts lines 52-58, built there
by six loops over the 4-wide bands; as a function it is defined exactly on
1..24. -/
def SEVERITY_MAP (n : Int) : Option SeverityLevel :=
  if 1 ≤ n ∧ n ≤ 4 then some .TRACE
  else if 5 ≤ n ∧ n ≤ 8 then some .DEBUG
  else if 9 ≤ n ∧ n ≤ 12 then some .INFO
  else if 13 ≤ n ∧ n ≤ 16 then some .WARN
  else if 17 ≤ n ∧ n ≤ 20 then some .ERROR
  else if 21 ≤ n ∧ n ≤ 24 then some .FATAL
  else none

/-- Embedding of `normalizeSeverity` (otlp-log-helpers.ts lines 64-81).  The
`n = 0` test models the JS truthiness guard `severityNumber &&`. -/
def normalizeSeverity (severityNumber : Option Int) (severityText : Option String) :
    SeverityLevel :=
  match severityNumber with
  | none => severityFromText severityText
  | some n =>
    if n = 0 then severityFromText severityText
    else
      match SEVERITY_MAP n with
      | some l => l
      | none => severityFromText severityText

/-- Modelled from the spec (section 4.1): the fixed 4-wide severity bands for
a number already known to lie in 1..24. -/
def severityBandSpec (n : Int) : SeverityLevel :=
  if n ≤ 4 then .TRACE
  else if n ≤ 8 then .DEBUG
  else if n ≤ 12 then .INFO
  else if n ≤ 16 then .WARN
  else if n ≤ 20 then .ERROR
  else .FATAL

/-- Modelled from the spec (section 4.1): "if `number` is in 1..24, map via
fixed 4-wide bands ... Else, case-insensitively substring-match `text` ...
Else default INFO. Number takes priority over text when both present and
number is valid."  The text-matching tier of the spec prescribes literally
the source's priority list, so it is expressed by `severityFromText`. -/
def normalizeSeveritySpec (severityNumber : Option Int) (severityText : Option String) :
    SeverityLevel :=
  match severityNumber with
  | none => severityFromText severityText
  | some n =>
    if 1 ≤ n ∧ n ≤ 24 then severityBandSpec n
    else severityFromText severityText

-- ─── Timestamp parsing ──────────────────────────────────────────────

/-- Fuel-driven binary digit count (`bitsAux (n+1) n` is the number of
binary digits of `n`, i.e. `log2 n + 1` for positive `n`); the fuel makes
it structurally recursive. -/
def bitsAux : Nat → Nat → Nat
  | 0, _ => 0
  | fuel + 1, n => if n = 0 then 0 else bitsAux fuel (n / 2) + 1

/-- Number of binary digits of `n`. -/
def bits (n : Nat) : Nat := bitsAux (n + 1) n

/-- Round a natural number to the nearest IEEE-754 double (53-bit
significand, ties to even).  This models both JS `Number()` on an
integer-valued input and the rounding of arithmetic results whose exact
value exceeds 2^53.  `bits p - 53` is the exponent of the unit in the last place. -/
def roundToDouble (p : Nat) : Nat :=
  if p < 2 ^ 53 then p
  else
    let k := bits p - 53
    let u := 2 ^ k
    let q := p / u
    let r := p % u
    if 2 * r < u then q * u
    else if u < 2 * r then (q + 1) * u
    else if q % 2 = 0 then q * u else (q + 1) * u

/-- Round-to-nearest, ties-to-even of the rational `n / d` to an integer. -/
def rneDiv (n d : Nat) : Nat :=
  if 2 * (n % d) < d then n / d
  else if d < 2 * (n % d) then n / d + 1
  else if (n / d) % 2 = 0 then n / d else n / d + 1

/-- Fuel-driven search for the smallest `t` with `a * 2^t ≥ d`. -/
def scaleUpAux (a d : Nat) : Nat → Nat → Nat
  | 0, t => t
  | fuel + 1, t => if d ≤ a * 2 ^ t then t else scaleUpAux a d fuel (t + 1)

/-- Floor of the base-2 logarithm of the rational `a / d` (for positive
`a` and `d`): the unique `e` with `2^e ≤ a/d < 2^(e+1)`. -/
def floorLog2Div (a d : Nat) : Int :=
  if d ≤ a then (bits (a / d) : Int) - 1
  else -(scaleUpAux a d d 1 : Int)

/-- Floor of the IEEE-754 double division `a / d`, for operands that are
exactly representable nonnegative integers (as in the source, where `a` is
an already-rounded `Number()` value and `d` the literal `1_000_000`): the
exact quotient is rounded to the nearest double — a multiple of the unit
in the last place `2^(e-52)` at exponent `e` — and then floored. -/
def jsFloorDivDouble (a d : Nat) : Nat :=
  if a = 0 then 0
  else
    let e := floorLog2Div a d
    if e ≤ 52 then
      let t := ((52 : Int) - e).toNat
      rneDiv (a * 2 ^ t) d / 2 ^ t
    else
      let t := (e - 52).toNat
      rneDiv a (d * 2 ^ t) * 2 ^ t

/-- Numeric value of a digit string, i.e. JS `Number(s)` for an all-digit
`s`.  The conversion is modelled exactly; the source's IEEE-double `Number`
is exact for the 13- and 10-digit branches and agrees with the spec's
`⌊T/1e6⌋` reading on the 16+-digit branch at this abstraction level. -/
def digitsToNat (cs : List Char) : Nat :=
  cs.foldl (fun a c => a * 10 + (c.toNat - 48)) 0

/-- Matches the regex `^\d+$` fragment: every character is a digit. -/
def isAllDigits (s : String) : Prop :=
  ∀ c ∈ s.toList, c.isDigit = true

instance (s : String) : Decidable (isAllDigits s) := by
  unfold isAllDigits; infer_instance

/-- Embedding of `nanoTimestampToDate` (otlp-log-helpers.ts lines 91-113),
returning the millisecond value of the produced `Date`.  The 16+-digit
branch computes `Math.floor(Number(nanoStr) / 1_000_000)` in IEEE-double
arithmetic: `Number` rounds the string's value to the nearest double
(`roundToDouble`) and the division rounds again before the floor
(`jsFloorDivDouble`); both roundings are modelled exactly.  The 13- and
10-digit branches are exact in doubles (their values stay below 2^53).
Outside the model: double overflow to Infinity (inputs of roughly 309+
digits) and the `Date` validity clamp at |ms| > 8.64e15, both far beyond
the ranges the claims and tests exercise.  The ISO-8601 branch
(`new Date(nanoStr)`) is host behaviour and is abstracted as the oracle
`iso`, which returns `none` when the string is unparseable (the source
then returns epoch 0). -/
def nanoTimestampToDate (iso : String → Option Int) (nanoStr : Option String) : Int :=
  match nanoStr with
  | none => 0
  | some s =>
    if s = "" then 0
    else if isAllDigits s ∧ 16 ≤ s.length then
      (jsFloorDivDouble (roundToDouble (digitsToNat s.toList)) 1000000 : Nat)
    else if isAllDigits s ∧ s.length = 13 then
      (digitsToNat s.toList : Nat)
    else if isAllDigits s ∧ s.length = 10 then
      ((digitsToNat s.toList) * 1000 : Nat)
    else
      match iso s with
      | some t => t
      | none => 0

/-- ISO oracle that fails on every string; used to instantiate theorems at
concrete inputs whose strings are not date-like. -/
def isoNone : String → Option Int := fun _ => none

-- ─── HTTP status categories ─────────────────────────────────────────

/-- Embedding of `httpStatusToCategory` (otlp-log-helpers.ts lines 180-189). -/
def httpStatusToCategory (status : Option Int) : Option HttpStatusCategory :=
  match status with
  | none => none
  | some s =>
    if 200 ≤ s ∧ s < 300 then some .c2xx
    else if 300 ≤ s ∧ s < 400 then some .c3xx
    else if 400 ≤ s ∧ s < 500 then some .c4xx
    else if 500 ≤ s then some .c5xx
    else none

-- ─── Deterministic record id (FNV-1a over a template string) ────────

/-- One iteration of the hash loop in `generateLogRecordId`
(otlp-log-helpers.ts lines 171-174): `hash ^= code; hash = (hash *
0x01000193) >>> 0`.  JS `^` reinterprets the operand as a signed 32-bit
integer, the multiplication is IEEE-double (hence `roundToDouble`), and
`>>> 0` is ToUint32, i.e. reduction modulo 2^32 into `[0, 2^32)`. -/
def fnvStep (h c : Nat) : Nat :=
  let x := h ^^^ c
  let xs : Int := if x < 2 ^ 31 then (x : Int) else (x : Int) - 2 ^ 32
  let p : Int := xs * 16777619
  let pr : Int := p.sign * (roundToDouble p.natAbs : Int)
  (pr % (2 ^ 32 : Int)).toNat

/-- The full hash loop of `generateLogRecordId`, starting from the FNV
offset basis 0x811c9dc5, over the character codes of the input. -/
def fnv1a (cs : List Nat) : Nat :=
  cs.foldl fnvStep 0x811c9dc5

/-- Digit character for JS `Number.prototype.toString(36)`: 0-9 then a-z. -/
def base36Char (d : Nat) : Char :=
  if d < 10 then Char.ofNat (48 + d) else Char.ofNat (87 + d)

/-- Fuel-driven base-36 rendering; any fuel exceeding the value itself is
enough, so the fuel is invisible in `natToBase36` below. -/
def natToBase36Aux : Nat → Nat → List Char
  | 0, _ => []
  | fuel + 1, n =>
    if n < 36 then [base36Char n]
    else natToBase36Aux fuel (n / 36) ++ [base36Char (n % 36)]

/-- JS `n.toString(36)` for a natural number, as a character list. -/
def natToBase36 (n : Nat) : List Char := natToBase36Aux (n + 1) n

/-- Embedding of `generateLogRecordId` (otlp-log-helpers.ts lines 162-176):
FNV-1a style hash of `sourceFile:lineNumber:timeUnixNano:severityNumber:`
`rawBody.slice(0,200)` rendered in base 36, suffixed with the base-36 line
number.  `charCodeAt` is modelled as the character code (exact on the BMP). -/
def generateLogRecordId (timeUnixNano : String) (severityNumber : Int)
    (rawBody : String) (sourceFile : String) (lineNumber : Nat) : String :=
  let input := sourceFile ++ ":" ++ toString lineNumber ++ ":" ++ timeUnixNano
      ++ ":" ++ toString severityNumber ++ ":" ++ String.mk (rawBody.toList.take 200)
  let hash := fnv1a (input.toList.map Char.toNat)
  String.mk (natToBase36 hash) ++ "-" ++ String.mk (natToBase36 lineNumber)

-- ─── Parsed record model ────────────────────────────────────────────

/-- Embedding of `ParsedLogRecord` (otlp-log.model.ts lines 91-146)
restricted to the fields the aggregation store, the filter pipeline and the
parser claims consult.  `timestampMs` is `timestamp.getTime()`. -/
structure ParsedLogRecord where
  id : String
  timeUnixNano : String
  timestampMs : Int
  severityNumber : Int
  severityText : SeverityLevel
  rawBody : String
  message : String
  httpMethod : Option String
  httpPath : Option String
  httpStatusCode : Option Int
  userId : Option String
  traceId : Option String
  spanId : Option String
  serviceName : Option String
  workloadName : Option String
  tags : Option (List String)
  scopeName : Option String
  scopeVersion : Option String
  sourceFile : String
  sourceLineNumber : Nat
deriving DecidableEq, Repr

-- ─── Aggregation store ──────────────────────────────────────────────

/-- Comparator of the chunk-merge sort (log-viewer-state.service.ts line
188): ascending by `timestamp.getTime()`. -/
def tsLE (a b : ParsedLogRecord) : Prop :=
  a.timestampMs ≤ b.timestampMs

instance : DecidableRel tsLE := fun a b => by unfold tsLE; infer_instance

instance : IsTotal ParsedLogRecord tsLE :=
  ⟨fun a b => Int.le_total a.timestampMs b.timestampMs⟩

instance : IsTrans ParsedLogRecord tsLE :=
  ⟨fun _ _ _ hab hbc => Int.le_trans hab hbc⟩

/-- JS `Array.prototype.sort` with the timestamp comparator.  The ES2019+
sort is stable, and a stable sort's output is uniquely determined, so it is
modelled by stable insertion sort. -/
def sortByTimestamp (rs : List ParsedLogRecord) : List ParsedLogRecord :=
  rs.insertionSort tsLE

/-- Chunk application of the aggregation store (log-viewer-state.service.ts
lines 181-191): drop incoming records whose id already exists in the store,
append the remainder, re-sort the whole list by timestamp. -/
def applyChunk (existing chunk : List ParsedLogRecord) : List ParsedLogRecord :=
  let existingIds := existing.map (·.id)
  let newRecords := chunk.filter (fun r => decide (r.id ∉ existingIds))
  sortByTimestamp (existing ++ newRecords)

/-- Record part of `removeFile` (log-viewer-state.service.ts lines 156-159):
keep the records whose provenance file differs. -/
def removeFile (records : List ParsedLogRecord) (fileName : String) :
    List ParsedLogRecord :=
  records.filter (fun r => decide (r.sourceFile ≠ fileName))

/-- Record part of `clearAll` (log-viewer-state.service.ts line 166). -/
def clearAllRecords : List ParsedLogRecord := []

-- ─── Filter state and pipeline ──────────────────────────────────────

/-- Embedding of `LogFilterState` (otlp-log.model.ts lines 150-160) as the
filter pipeline consumes it.  `timeStart`/`timeEnd` are the two bounds of
the nested `timeRange`, as millisecond values.  The model file of the
snapshot omits `httpMethods`/`httpPath` while `applyFilters` and the table
component read and write them, so they are included here; the default state
leaves them empty, the only value under which the pipeline's reads are
defined. -/
structure LogFilterState where
  severities : List SeverityLevel
  searchText : String
  timeStart : Option Int
  timeEnd : Option Int
  services : List String
  httpStatusCategories : List HttpStatusCategory
  httpMethods : List String
  httpPath : String
  traceId : String
deriving DecidableEq, Repr

/-- Embedding of `createDefaultFilterState` (otlp-log.model.ts lines
162-171): every collection empty, every string empty, both bounds absent. -/
def createDefaultFilterState : LogFilterState :=
  ⟨[], "", none, none, [], [], [], "", ""⟩

/-- Text-search predicate (log-viewer-state.service.ts lines 307-321):
case-insensitive substring match over message, HTTP path, user id, trace
id, tags, service and workload name.  `searchLower` is the lowercased
needle. -/
def matchesTextSearch (r : ParsedLogRecord) (searchLower : List Char) : Bool :=
  containsSub (lowerList r.message) searchLower ||
  (match r.httpPath with
    | some p => containsSub (lowerList p) searchLower
    | none => false) ||
  (match r.userId with
    | some u => containsSub (lowerList u) searchLower
    | none => false) ||
  (match r.traceId with
    | some t => containsSub (lowerList t) searchLower
    | none => false) ||
  (match r.tags with
    | some ts => ts.any (fun t => containsSub (lowerList t) searchLower)
    | none => false) ||
  (match r.serviceName with
    | some s => containsSub (lowerList s) searchLower
    | none => false) ||
  (match r.workloadName with
    | some w => containsSub (lowerList w) searchLower
    | none => false)

/-- JS `r.serviceName ?? r.workloadName`. -/
def svcOf (r : ParsedLogRecord) : Option String :=
  r.serviceName.orElse (fun _ => r.workloadName)

/-- Embedding of `applyFilters` (log-viewer-state.service.ts lines 244-305):
a left-to-right narrowing pipeline.  Guards of the form `x ≠ ""` and
`s ≠ ""` inside the service/method stages model JS string truthiness. -/
def applyFilters (records : List ParsedLogRecord) (filters : LogFilterState) :
    List ParsedLogRecord :=
  let r0 := records
  let r1 := if 0 < filters.severities.length then
      r0.filter (fun r => decide (r.severityText ∈ filters.severities))
    else r0
  let r2 := match filters.timeStart with
    | some startMs => r1.filter (fun r => decide (startMs ≤ r.timestampMs))
    | none => r1
  let r3 := match filters.timeEnd with
    | some endMs => r2.filter (fun r => decide (r.timestampMs ≤ endMs))
    | none => r2
  let r4 := if 0 < filters.services.length then
      r3.filter (fun r =>
        match svcOf r with
        | some s => decide (s ≠ "") && decide (s ∈ filters.services)
        | none => false)
    else r3
  let r5 := if 0 < filters.httpStatusCategories.length then
      r4.filter (fun r =>
        match httpStatusToCategory r.httpStatusCode with
        | some cat => decide (cat ∈ filters.httpStatusCategories)
        | none => false)
    else r4
  let r6 := if 0 < filters.httpMethods.length then
      r5.filter (fun r =>
        match r.httpMethod with
        | some m => decide (m ≠ "") && decide (m ∈ filters.httpMethods)
        | none => false)
    else r5
  let r7 := if filters.httpPath ≠ "" then
      r6.filter (fun r =>
        match r.httpPath with
        | some p => containsSub (lowerList p) (lowerList filters.httpPath)
        | none => false)
    else r6
  let r8 := if filters.searchText ≠ "" then
      r7.filter (fun r => matchesTextSearch r (lowerList filters.searchText))
    else r7
  r8

-- ─── Worker input model ─────────────────────────────────────────────

/-- Structured body fields (`BodyInnerJson`, otlp-log-helpers.ts lines
117-140) that the flattener copies into the record. -/
structure BodyInner where
  timestamp : Option String
  level : Option String
  message : Option String
  httpMethod : Option String
  httpPath : Option String
  httpStatus : Option Int
  userId : Option String
  userSessionId : Option String
  userIp : Option String
  traceId : Option String
  spanId : Option String
  serviceVersion : Option String
  tags : Option (List String)
deriving DecidableEq, Repr

/-- Embedding of `parseBodyJson` (otlp-log-helpers.ts lines 146-155): the
empty/first-character guard is from the source; the `JSON.parse` of an
object-shaped body, including extraction of the `BodyInnerJson` fields, is
the oracle `bj` (returning `none` for unparseable or non-object bodies). -/
def parseBodyJson (bj : String → Option BodyInner) (rawBody : String) :
    Option BodyInner :=
  if rawBody = "" then none
  else if rawBody.toList.head? ≠ some (Char.ofNat 123) then none
  else bj rawBody

/-- Body-JSON oracle that fails on every body. -/
def bjNone : String → Option BodyInner := fun _ => none

/-- One OTLP log record as the flattener reads it (`OtlpLogRecord`,
otlp-log.model.ts).  `body` is the extracted body string: the source's
`extractAnyValue` result, JSON-stringified when non-string; `none` models
an absent/falsy `body` field, for which the source leaves `rawBody = ''`. -/
structure OtlpLogRecordIn where
  timeUnixNano : Option String
  observedTimeUnixNano : Option String
  severityNumber : Option Int
  severityText : Option String
  body : Option String
  traceId : Option String
  spanId : Option String
deriving DecidableEq, Repr

/-- Scope metadata (`OtlpScope`). -/
structure OtlpScopeIn where
  name : Option String
  version : Option String
deriving DecidableEq, Repr

/-- One scope-log group (`OtlpScopeLog`).  `none` lists model absent
fields, read through `?? []` in the source. -/
structure OtlpScopeLogIn where
  scope : Option OtlpScopeIn
  logRecords : Option (List OtlpLogRecordIn)
deriving DecidableEq, Repr

/-- One resource-log group (`OtlpResourceLog`).  `resourceAttrs` stands for
`kvlistToRecord(resource?.attributes)`: the flat string-keyed record after
primitive extraction (string values only at this abstraction; later keys
overwrite earlier ones, hence lookup takes the last binding). -/
structure OtlpResourceLogIn where
  resourceAttrs : List (String × String)
  scopeLogs : Option (List OtlpScopeLogIn)
deriving DecidableEq, Repr

/-- One export envelope (`OtlpExportLogsServiceRequest`). -/
structure Envelope where
  resourceLogs : Option (List OtlpResourceLogIn)
deriving DecidableEq, Repr

/-- JS object property lookup on the flattened attribute record: the last
binding for the key wins. -/
def lookupAttr (attrs : List (String × String)) (key : String) : Option String :=
  (attrs.reverse.find? (fun kv => kv.1 == key)).map (·.2)

/-- Embedding of `flattenEnvelope` (log-parse.worker.ts lines 311-393):
walk resource → scope → log record and build one `ParsedLogRecord` per log
record, using the codec functions above. -/
def flattenEnvelope (iso : String → Option Int) (bj : String → Option BodyInner)
    (envelope : Envelope) (fileName : String) (lineNumber : Nat) :
    List ParsedLogRecord :=
  (envelope.resourceLogs.getD []).flatMap fun rl =>
    let serviceName := lookupAttr rl.resourceAttrs "service.name"
    let workloadName := lookupAttr rl.resourceAttrs "workload.name"
    (rl.scopeLogs.getD []).flatMap fun sl =>
      let scopeName := sl.scope.bind (·.name)
      let scopeVersion := sl.scope.bind (·.version)
      (sl.logRecords.getD []).map fun lr =>
        let timeNano := (lr.timeUnixNano.orElse fun _ => lr.observedTimeUnixNano).getD ""
        let rawBody := lr.body.getD ""
        let severityNum := lr.severityNumber.getD 0
        let severityTxt := normalizeSeverity lr.severityNumber lr.severityText
        let inner := parseBodyJson bj rawBody
        { id := generateLogRecordId timeNano severityNum rawBody fileName lineNumber
          timeUnixNano := timeNano
          timestampMs := nanoTimestampToDate iso (some timeNano)
          severityNumber := severityNum
          severityText := severityTxt
          rawBody := rawBody
          message := (inner.bind (·.message)).getD (String.mk (rawBody.toList.take 500))
          httpMethod := inner.bind (·.httpMethod)
          httpPath := inner.bind (·.httpPath)
          httpStatusCode := inner.bind (·.httpStatus)
          userId := inner.bind (·.userId)
          traceId := (inner.bind (·.traceId)).orElse fun _ => lr.traceId
          spanId := (inner.bind (·.spanId)).orElse fun _ => lr.spanId
          serviceName := serviceName
          workloadName := workloadName
          tags := inner.bind (·.tags)
          scopeName := scopeName
          scopeVersion := scopeVersion
          sourceFile := fileName
          sourceLineNumber := lineNumber }

-- ─── Worker events and the chunked parsing paths ────────────────────

/-- Worker-to-main events (`log-worker-protocol`), minus the wall-clock
`elapsedMs` of the completion message, which is not statable. -/
inductive WorkerEvent where
  | progress (totalLines processedLines percent : Nat)
  | chunk (records : List ParsedLogRecord) (parseErrors : Nat)
  | complete (totalRecords totalParseErrors : Nat)
deriving DecidableEq, Repr

/-- JS `Math.round((p / t) * 100)` for naturals (round half up). -/
def roundPct100 (p t : Nat) : Nat :=
  (200 * p + t) / (2 * t)

/-- JS `Math.round((p / t) * 50)` for naturals (round half up). -/
def roundPct50 (p t : Nat) : Nat :=
  (100 * p + t) / (2 * t)

/-- Outcome of one JSONL line after `trim` and `JSON.parse`
(log-parse.worker.ts lines 223-237): blank line, unparseable line, or an
envelope.  This is the per-line seam at which the `JSON.parse` host call is
abstracted. -/
inductive LineParse where
  | blank
  | err
  | env (e : Envelope)
deriving DecidableEq, Repr

/-- The loop body of `parseJsonl` (log-parse.worker.ts lines 216-270).
Arguments after `cancelled`: remaining lines, line index `i`,
`processedLines`, `totalRecords`, `totalParseErrors`, chunk buffer, chunk
error counter.  Returns the events emitted from this point on.  The worker
thread handles one message at a time, so the cancellation set cannot change
during a parse: `cancelled` is the job's membership in it, fixed at job
start, and polling at `i % 100 = 0` observes it. -/
def jsonlLoop (iso : String → Option Int) (bj : String → Option BodyInner)
    (fileName : String) (chunkSize totalLines : Nat) (cancelled : Bool) :
    List LineParse → Nat → Nat → Nat → Nat → List ParsedLogRecord → Nat →
    List WorkerEvent
  | [], _i, _processed, totalRecs, totalErrs, buf, bufErrs =>
      (if 0 < buf.length ∨ 0 < bufErrs then [.chunk buf bufErrs] else [])
        ++ [.complete totalRecs totalErrs]
  | l :: rest, i, processed, totalRecs, totalErrs, buf, bufErrs =>
      if i % 100 = 0 ∧ cancelled then []
      else
        match l with
        | .blank =>
            jsonlLoop iso bj fileName chunkSize totalLines cancelled rest
              (i + 1) (processed + 1) totalRecs totalErrs buf bufErrs
        | .err =>
            if chunkSize ≤ buf.length then
              .chunk buf (bufErrs + 1) ::
                .progress totalLines (processed + 1)
                  (roundPct100 (processed + 1) totalLines) ::
                jsonlLoop iso bj fileName chunkSize totalLines cancelled rest
                  (i + 1) (processed + 1) totalRecs (totalErrs + 1) [] 0
            else
              jsonlLoop iso bj fileName chunkSize totalLines cancelled rest
                (i + 1) (processed + 1) totalRecs (totalErrs + 1) buf (bufErrs + 1)
        | .env e =>
            let recs := flattenEnvelope iso bj e fileName (i + 1)
            let buf' := buf ++ recs
            if chunkSize ≤ buf'.length then
              .chunk buf' bufErrs ::
                .progress totalLines (processed + 1)
                  (roundPct100 (processed + 1) totalLines) ::
                jsonlLoop iso bj fileName chunkSize totalLines cancelled rest
                  (i + 1) (processed + 1) (totalRecs + recs.length) totalErrs [] 0
            else
              jsonlLoop iso bj fileName chunkSize totalLines cancelled rest
                (i + 1) (processed + 1) (totalRecs + recs.length) totalErrs buf' bufErrs

/-- Embedding of `parseJsonl` (log-parse.worker.ts lines 200-279) over the
line outcomes of `content.split(/\r?\n/)`. -/
def parseJsonl (iso : String → Option Int) (bj : String → Option BodyInner)
    (fileName : String) (lines : List LineParse) (chunkSize : Nat)
    (cancelled : Bool) : List WorkerEvent :=
  jsonlLoop iso bj fileName chunkSize lines.length cancelled lines 0 0 0 0 [] 0

-- ─── Concatenated-JSON splitting and the single-JSON path ───────────

/-- JS `String.prototype.trimEnd`. -/
def trimEndStr (s : String) : String :=
  String.mk ((s.toList.reverse.dropWhile Char.isWhitespace).reverse)

/-- The scanning loop of `splitConcatenatedJson` (log-parse.worker.ts lines
287-309), reformulated over the physical lines of the content: an
unindented `\x7b` line opens a candidate block, an unindented `\x7d` line
closes and emits it, every line in between belongs to the open block, and
an unclosed trailing block is dropped. -/
def splitLoop : List String → Option (List String) → List (List String)
  | [], _ => []
  | l :: rest, acc =>
      if trimEndStr l = "\x7b" ∧ acc = none then
        splitLoop rest (some [l])
      else if trimEndStr l = "\x7d" ∧ acc ≠ none then
        (acc.getD [] ++ [l]) :: splitLoop rest none
      else
        match acc with
        | some ls => splitLoop rest (some (ls ++ [l]))
        | none => splitLoop rest none

/-- Decomposition of a string into its `\n`-separated physical lines,
matching the worker's `indexOf`-based scan. -/
def splitNlAux : List Char → List Char → List String
  | [], acc => [String.mk acc.reverse]
  | c :: rest, acc =>
    if c = '\n' then String.mk acc.reverse :: splitNlAux rest []
    else splitNlAux rest (c :: acc)

/-- Physical lines of a string. -/
def splitLines (s : String) : List String := splitNlAux s.toList []

/-- Embedding of `splitConcatenatedJson` (log-parse.worker.ts lines
287-309). -/
def splitConcatenatedJson (content : String) : List String :=
  (splitLoop (splitLines content) none).map (String.intercalate "\n")

/-- Result of the host `JSON.parse` as the single-JSON path inspects it: an
array (whose elements are then all treated as envelopes), an object whose
`resourceLogs` property is truthy, or anything else. -/
inductive ParsedJson where
  | arr (elems : List Envelope)
  | objWithRL (e : Envelope)
  | other
deriving Repr

/-- Envelope-extraction front end of `parseSingleJson` (log-parse.worker.ts
lines 76-133): direct parse of the whole content, falling back to
splitting concatenated objects and parsing each candidate, skipping
unparseable candidates silently.  `none` is the early-return failure path
(non-array/non-envelope direct parse, or no candidate blocks), on which the
source emits an error chunk and completes. -/
def singleJsonEnvelopes (J : String → Option ParsedJson) (content : String) :
    Option (List Envelope) :=
  match J content with
  | some (.arr es) => some es
  | some (.objWithRL e) => some [e]
  | some .other => none
  | none =>
    let texts := splitConcatenatedJson content
    if texts.length = 0 then none
    else
      some (texts.foldl (fun acc t =>
        match J t with
        | some (.arr es) => acc ++ es
        | some (.objWithRL e) => acc ++ [e]
        | _ => acc) [])

/-- Inner record loop of the single-JSON flattening phase
(log-parse.worker.ts lines 154-175): push records one at a time, emitting a
chunk and a progress event whenever the buffer reaches the chunk size.
Returns the emitted events and the remaining buffer. -/
def pushRecords (chunkSize totalEnvs eIdx : Nat) :
    List ParsedLogRecord → List ParsedLogRecord →
    List WorkerEvent × List ParsedLogRecord
  | buf, [] => ([], buf)
  | buf, r :: rest =>
      let buf' := buf ++ [r]
      if chunkSize ≤ buf'.length then
        let res := pushRecords chunkSize totalEnvs eIdx [] rest
        (.chunk buf' 0 ::
          .progress totalEnvs (eIdx + 1) (50 + roundPct50 (eIdx + 1) totalEnvs) ::
          res.1, res.2)
      else
        pushRecords chunkSize totalEnvs eIdx buf' rest

/-- Envelope loop of `parseSingleJson` (log-parse.worker.ts lines 143-195),
with the per-envelope cancellation poll, the final flush and the
completion event. -/
def envLoop (iso : String → Option Int) (bj : String → Option BodyInner)
    (fileName : String) (chunkSize totalEnvs : Nat) (cancelled : Bool) :
    List Envelope → Nat → List ParsedLogRecord → Nat → List WorkerEvent
  | [], _idx, buf, totalRecs =>
      (if 0 < buf.length then [.chunk buf 0] else []) ++ [.complete totalRecs 0]
  | e :: rest, idx, buf, totalRecs =>
      if cancelled then []
      else
        let recs := flattenEnvelope iso bj e fileName (idx + 1)
        let res := pushRecords chunkSize totalEnvs idx buf recs
        res.1 ++ envLoop iso bj fileName chunkSize totalEnvs cancelled rest
          (idx + 1) res.2 (totalRecs + recs.length)

/-- Embedding of `parseSingleJson` (log-parse.worker.ts lines 60-195). -/
def parseSingleJson (iso : String → Option Int) (bj : String → Option BodyInner)
    (J : String → Option ParsedJson) (fileName content : String)
    (chunkSize : Nat) (cancelled : Bool) : List WorkerEvent :=
  .progress 1 0 10 ::
    match singleJsonEnvelopes J content with
    | none => [.chunk [] 1, .complete 0 1]
    | some envelopes =>
        .progress 1 0 50 ::
          envLoop iso bj fileName chunkSize envelopes.length cancelled
            envelopes 0 [] 0

/-- Whole-content JSON oracle that fails on every string. -/
def jNone : String → Option ParsedJson := fun _ => none

/-- Recognizer of completion events. -/
def isCompleteEv : WorkerEvent → Bool
  | .complete _ _ => true
  | _ => false

/-- Total number of records carried by the chunk events of an event list. -/
def chunkRecTotal (evs : List WorkerEvent) : Nat :=
  (evs.map (fun ev => match ev with | .chunk rs _ => rs.length | _ => 0)).sum

-- ─── Concrete inputs and measures used by witnesses/counterexamples ─

/-- Value of a base-36 digit character. -/
def base36Val (c : Char) : Nat :=
  if c.toNat < 58 then c.toNat - 48 else c.toNat - 87

/-- Decoder for `natToBase36`, used to establish injectivity. -/
def unbase36 (cs : List Char) : Nat :=
  cs.foldl (fun a c => 36 * a + base36Val c) 0

/-- A raw body of 200 `a` characters followed by `x`. -/
def bodyA : String := String.mk (List.replicate 200 'a' ++ ['x'])

/-- A raw body of 200 `a` characters followed by `y`. -/
def bodyB : String := String.mk (List.replicate 200 'a' ++ ['y'])

/-- A minimal OTLP log record with every optional field absent. -/
def cexLr : OtlpLogRecordIn := ⟨none, none, none, none, none, none, none⟩

/-- An envelope with one resource, one scope and two identical log records;
its two flattened records carry the same content hash. -/
def cexEnv2 : Envelope := ⟨some [⟨[], some [⟨none, some [cexLr, cexLr]⟩]⟩]⟩

/-- The two records flattened from `cexEnv2` at line 1 of file `f`. -/
def cexChunk : List ParsedLogRecord := flattenEnvelope isoNone bjNone cexEnv2 "f" 1

/-- A concrete record used by store witnesses. -/
def rA : ParsedLogRecord :=
  ⟨"id1", "", 5, 0, .INFO, "", "", none, none, none, none, none, none, none,
    none, none, none, none, "g.log", 1⟩

/-- Per-envelope record count of an envelope. -/
def envRecCount (e : Envelope) : Nat :=
  ((e.resourceLogs.getD []).map (fun rl =>
    ((rl.scopeLogs.getD []).map (fun sl => (sl.logRecords.getD []).length)).sum)).sum

/-- JSON oracle returning the two-record envelope for every input. -/
def jObjCex : String → Option ParsedJson := fun _ => some (.objWithRL cexEnv2)

/-- Pretty-printed content whose direct parse fails and whose single split
candidate block is itself unparseable JSON. -/
def cexContent : String := "\x7b\n\"bad\n\x7d"

/-- JSON oracle whose direct parse is an empty array. -/
def jEmptyArr : String → Option ParsedJson := fun _ => some (.arr [])

-- ─── Severity claims ────────────────────────────────────────────────

lemma SEVERITY_MAP_in_range (n : Int) (h1 : 1 ≤ n) (h2 : n ≤ 24) :
    SEVERITY_MAP n = some (severityBandSpec n) := by
  unfold SEVERITY_MAP severityBandSpec
  split_ifs <;> first | rfl | omega

lemma SEVERITY_MAP_out_range (n : Int) (h : n < 1 ∨ 24 < n) :
    SEVERITY_MAP n = none := by
  unfold SEVERITY_MAP
  split_ifs <;> first | rfl | omega

/-- C6: `normalizeSeverity` maps every integer severity number in 1..24 via
the fixed 4-wide bands (1-4 TRACE, 5-8 DEBUG, 9-12 INFO, 13-16 WARN, 17-20
ERROR, 21-24 FATAL), a valid number taking priority over text; for
out-of-range or absent numbers it case-insensitively substring-matches the
text against TRACE/DEBUG/INFO/WARN/(ERROR|ERR)/(FATAL|CRITICAL) in that
priority order, and with absent or unmatched text it returns INFO — i.e.
the source function agrees with the spec's description everywhere. -/
theorem normalizeSeverity_matches_spec (num : Option Int) (text : Option String) :
    normalizeSeverity num text = normalizeSeveritySpec num text := by
  cases num with
  | none => rfl
  | some n =>
    simp only [normalizeSeverity, normalizeSeveritySpec]
    by_cases h : 1 ≤ n ∧ n ≤ 24
    · rw [SEVERITY_MAP_in_range n h.1 h.2, if_pos h, if_neg (show ¬ n = 0 by omega)]
    · rw [if_neg h, SEVERITY_MAP_out_range n (by omega)]
      by_cases hn0 : n = 0 <;> simp [hn0]

-- ─── Timestamp claim ────────────────────────────────────────────────

lemma bitsAux_congr (n : Nat) : ∀ f₁ f₂, n < f₁ → n < f₂ →
    bitsAux f₁ n = bitsAux f₂ n := by
  induction n using Nat.strong_induction_on with
  | _ n ih =>
    intro f₁ f₂ h₁ h₂
    obtain ⟨fa, rfl⟩ : ∃ fa, f₁ = fa + 1 := ⟨f₁ - 1, by omega⟩
    obtain ⟨fb, rfl⟩ : ∃ fb, f₂ = fb + 1 := ⟨f₂ - 1, by omega⟩
    simp only [bitsAux]
    split_ifs with h
    · rfl
    · rw [ih (n / 2) (Nat.div_lt_self (by omega) (by omega)) fa fb
        (by omega) (by omega)]

/-- Unfolding equation of the binary digit count. -/
lemma bits_eq (n : Nat) :
    bits n = if n = 0 then 0 else bits (n / 2) + 1 := by
  rw [show bits n = (if n = 0 then 0 else bitsAux n (n / 2) + 1) from rfl]
  split_ifs with h
  · rfl
  · rw [bitsAux_congr (n / 2) n (n / 2 + 1) (by omega) (by omega)]
    rfl

lemma bits_le_of_lt : ∀ n k : Nat, n < 2 ^ k → bits n ≤ k := by
  intro n
  induction n using Nat.strong_induction_on with
  | _ n ih =>
    intro k hk
    rw [bits_eq]
    split_ifs with h0
    · omega
    · rcases Nat.eq_zero_or_pos k with rfl | hkpos
      · simp at hk
        omega
      · have h2 : 2 ^ (k - 1) * 2 = 2 ^ k := by
          rw [← Nat.pow_succ]
          congr 1
          omega
        have hhalf : n / 2 < 2 ^ (k - 1) :=
          Nat.div_lt_of_lt_mul (by omega)
        have := ih (n / 2) (Nat.div_lt_self (by omega) (by omega)) (k - 1) hhalf
        omega

lemma one_le_bits {n : Nat} (h : 1 ≤ n) : 1 ≤ bits n := by
  rw [bits_eq]
  split_ifs with h0 <;> omega

/-- The rounded quotient `rneDiv n 1000000` differs from the exact rational
`n / 10^6` by at most one half. -/
lemma rneDiv_bounds (n : Nat) :
    2 * rneDiv n 1000000 * 1000000 ≤ 2 * n + 1000000
    ∧ 2 * n ≤ 2 * rneDiv n 1000000 * 1000000 + 1000000 := by
  have h := Nat.div_add_mod n 1000000
  have hr : n % 1000000 < 1000000 := Nat.mod_lt _ (by omega)
  unfold rneDiv
  split_ifs <;> omega

/-- Floor of the double division by 10^6 agrees with exact floor division
whenever the dividend is below 2^53: the quotient is then small enough
that its unit in the last place stays below 2/10^6, so rounding the
quotient never crosses an integer boundary. -/
lemma jsFloorDivDouble_exact (a : Nat) (ha : a < 2 ^ 53) :
    jsFloorDivDouble a 1000000 = a / 1000000 := by
  by_cases h0 : a = 0
  · subst h0
    simp [jsFloorDivDouble]
  · by_cases hge : 1000000 ≤ a
    · -- normal case: quotient between 1 and 2^34
      have hQ1 : 1 ≤ a / 1000000 := (Nat.one_le_div_iff (by omega)).mpr hge
      have hQlt : a / 1000000 < 2 ^ 34 :=
        Nat.div_lt_of_lt_mul (by omega)
      have hbQle : bits (a / 1000000) ≤ 34 := bits_le_of_lt _ _ hQlt
      have hbQ1 : 1 ≤ bits (a / 1000000) := one_le_bits hQ1
      have he : floorLog2Div a 1000000 = (bits (a / 1000000) : Int) - 1 := by
        unfold floorLog2Div
        rw [if_pos hge]
      have hele : floorLog2Div a 1000000 ≤ 52 := by omega
      have ht : ((52 : Int) - floorLog2Div a 1000000).toNat
          = 53 - bits (a / 1000000) := by omega
      have h19 : 19 ≤ 53 - bits (a / 1000000) := by omega
      have hP : 1000000 < 2 * 2 ^ (53 - bits (a / 1000000)) := by
        have := Nat.pow_le_pow_right (by omega : 1 ≤ 2) h19
        have h219 : (2 : Nat) ^ 19 = 524288 := by norm_num
        omega
      rw [show jsFloorDivDouble a 1000000
          = (if floorLog2Div a 1000000 ≤ 52 then
              rneDiv (a * 2 ^ ((52 : Int) - floorLog2Div a 1000000).toNat) 1000000
                / 2 ^ ((52 : Int) - floorLog2Div a 1000000).toNat
            else
              rneDiv a (1000000 * 2 ^ (floorLog2Div a 1000000 - 52).toNat)
                * 2 ^ (floorLog2Div a 1000000 - 52).toNat) from by
          unfold jsFloorDivDouble
          rw [if_neg h0],
        if_pos hele, ht]
      set P := 2 ^ (53 - bits (a / 1000000)) with hPdef
      have hb := rneDiv_bounds (a * P)
      have hsplit : 1000000 * (a / 1000000) + a % 1000000 = a :=
        Nat.div_add_mod a 1000000
      have hs : a % 1000000 < 1000000 := Nat.mod_lt _ (by omega)
      have hNP : a * P = 1000000 * (a / 1000000 * P) + a % 1000000 * P := by
        calc a * P = (1000000 * (a / 1000000) + a % 1000000) * P := by
              rw [hsplit]
          _ = 1000000 * (a / 1000000 * P) + a % 1000000 * P := by ring
      have hsP : a % 1000000 * P ≤ 999999 * P :=
        Nat.mul_le_mul_right P (by omega)
      have hlo : a / 1000000 * P ≤ rneDiv (a * P) 1000000 := by omega
      have hhi : rneDiv (a * P) 1000000 < (a / 1000000 + 1) * P := by
        have hexp : (a / 1000000 + 1) * P = a / 1000000 * P + P := by ring
        omega
      exact Nat.div_eq_of_lt_le hlo hhi
    · -- small case: the quotient is below 1, so the floor is 0
      have he0 : floorLog2Div a 1000000 ≤ 0 := by
        unfold floorLog2Div
        rw [if_neg hge]
        omega
      have hele : floorLog2Div a 1000000 ≤ 52 := by omega
      have ht52 : 52 ≤ ((52 : Int) - floorLog2Div a 1000000).toNat := by omega
      rw [show jsFloorDivDouble a 1000000
          = (if floorLog2Div a 1000000 ≤ 52 then
              rneDiv (a * 2 ^ ((52 : Int) - floorLog2Div a 1000000).toNat) 1000000
                / 2 ^ ((52 : Int) - floorLog2Div a 1000000).toNat
            else
              rneDiv a (1000000 * 2 ^ (floorLog2Div a 1000000 - 52).toNat)
                * 2 ^ (floorLog2Div a 1000000 - 52).toNat) from by
          unfold jsFloorDivDouble
          rw [if_neg h0],
        if_pos hele]
      set t := ((52 : Int) - floorLog2Div a 1000000).toNat with htdef
      have hP : 1000000 < 2 ^ t := by
        have := Nat.pow_le_pow_right (by omega : 1 ≤ 2) ht52
        have h252 : (1000000 : Nat) < 2 ^ 52 := by norm_num
        omega
      have hb := rneDiv_bounds (a * 2 ^ t)
      have hsP : a * 2 ^ t ≤ 999999 * 2 ^ t :=
        Nat.mul_le_mul_right _ (by omega)
      have hm : rneDiv (a * 2 ^ t) 1000000 < 2 ^ t := by omega
      rw [Nat.div_eq_of_lt hm, Nat.div_eq_of_lt (by omega : a < 1000000)]

/-- Counterexample to C7 as stated: the source computes
`Math.floor(Number(nanoStr) / 1_000_000)`, and `Number` rounds to the
nearest IEEE double before the division.  For the 18-digit string
`600000000001999937` the double rounding yields 600000000002000000
(doubles are spaced 128 apart at that magnitude), so the program produces
millisecond value 600000000002, while the claimed `⌊T/1e6⌋` is
600000000001. -/
theorem nanoTimestampToDate_ieee_cex :
    nanoTimestampToDate isoNone (some "600000000001999937") = 600000000002
  ∧ (digitsToNat "600000000001999937".toList / 1000000 : Nat) = 600000000001
  ∧ nanoTimestampToDate isoNone (some "600000000001999937")
      ≠ ((digitsToNat "600000000001999937".toList / 1000000 : Nat) : Int) :=
  ⟨by decide, by decide, by decide⟩

/-- C7 (amended): timestamp parsing follows the tiered digit-count
heuristic: absent or empty input yields epoch 0; an all-digit string of
length at least 16 is treated as nanoseconds by
`Math.floor(Number(T)/1e6)` in IEEE-double arithmetic, which equals
`⌊T/1e6⌋` exactly whenever `T < 2^53` (but not in general, the doubles
being coarser above 2^53); exactly 13 digits yield `T`; exactly 10 digits
yield `T*1000` (both branches exact in doubles); any other string is
attempted as ISO-8601 (the `iso` oracle), and an unparseable string yields
epoch 0. -/
theorem nanoTimestampToDate_amended :
    (∀ iso, nanoTimestampToDate iso none = 0)
  ∧ (∀ iso, nanoTimestampToDate iso (some "") = 0)
  ∧ (∀ iso s, isAllDigits s → 16 ≤ s.length → digitsToNat s.toList < 2 ^ 53 →
      nanoTimestampToDate iso (some s) = ((digitsToNat s.toList / 1000000 : Nat) : Int))
  ∧ (∀ iso s, isAllDigits s → s.length = 13 →
      nanoTimestampToDate iso (some s) = ((digitsToNat s.toList : Nat) : Int))
  ∧ (∀ iso s, isAllDigits s → s.length = 10 →
      nanoTimestampToDate iso (some s) = ((digitsToNat s.toList * 1000 : Nat) : Int))
  ∧ (∀ iso s, s ≠ "" →
      ¬ (isAllDigits s ∧ (16 ≤ s.length ∨ s.length = 13 ∨ s.length = 10)) →
      nanoTimestampToDate iso (some s) = (iso s).getD 0) := by
  refine ⟨fun iso => rfl, fun iso => rfl, ?_, ?_, ?_, ?_⟩
  · intro iso s hd hlen hsmall
    have hne : ¬ s = "" := by
      intro he; rw [he] at hlen; simp [String.length] at hlen
    simp only [nanoTimestampToDate]
    rw [if_neg hne, if_pos ⟨hd, hlen⟩]
    rw [show roundToDouble (digitsToNat s.toList) = digitsToNat s.toList from by
        unfold roundToDouble
        rw [if_pos hsmall],
      jsFloorDivDouble_exact _ hsmall]
  · intro iso s hd hlen
    have hne : ¬ s = "" := by
      intro he; rw [he] at hlen; simp [String.length] at hlen
    simp only [nanoTimestampToDate]
    rw [if_neg hne, if_neg (by omega : ¬ (isAllDigits s ∧ 16 ≤ s.length)),
      if_pos ⟨hd, hlen⟩]
  · intro iso s hd hlen
    have hne : ¬ s = "" := by
      intro he; rw [he] at hlen; simp [String.length] at hlen
    simp only [nanoTimestampToDate]
    rw [if_neg hne, if_neg (by omega : ¬ (isAllDigits s ∧ 16 ≤ s.length)),
      if_neg (by omega : ¬ (isAllDigits s ∧ s.length = 13)), if_pos ⟨hd, hlen⟩]
  · intro iso s hne hrest
    simp only [nanoTimestampToDate]
    rw [if_neg hne, if_neg (fun hc => hrest ⟨hc.1, Or.inl hc.2⟩),
      if_neg (fun hc => hrest ⟨hc.1, Or.inr (Or.inl hc.2)⟩),
      if_neg (fun hc => hrest ⟨hc.1, Or.inr (Or.inr hc.2)⟩)]
    cases iso s <;> rfl

/-- Witness for C7 (amended) at concrete strings of each tier. -/
theorem nanoTimestampToDate_amended_witness :
    nanoTimestampToDate isoNone (some "1234567890123456") = 1234567890
  ∧ nanoTimestampToDate isoNone (some "1703001234567") = 1703001234567
  ∧ nanoTimestampToDate isoNone (some "1703001234") = 1703001234000
  ∧ nanoTimestampToDate isoNone (some "not-a-date") = 0 := by
  refine ⟨?_, ?_, ?_, ?_⟩
  · rw [nanoTimestampToDate_amended.2.2.1 isoNone "1234567890123456"
      (by decide) (by decide) (by decide)]
    rfl
  · rw [nanoTimestampToDate_amended.2.2.2.1 isoNone "1703001234567"
      (by decide) (by decide)]
    rfl
  · rw [nanoTimestampToDate_amended.2.2.2.2.1 isoNone "1703001234"
      (by decide) (by decide)]
    rfl
  · rw [nanoTimestampToDate_amended.2.2.2.2.2 isoNone "not-a-date"
      (by decide) (by decide)]
    rfl

-- ─── Filter claims ──────────────────────────────────────────────────

/-- C9: applying the default filter state — every collection empty, every
string empty, both time bounds absent — returns the full record list
unchanged; empty never means "match nothing". -/
theorem applyFilters_default (records : List ParsedLogRecord) :
    applyFilters records createDefaultFilterState = records := rfl

/-- C10: the `traceId` field of the filter state is never consulted by the
filter pipeline — two filter states that differ only in `traceId` produce
identical results on every record list. -/
theorem applyFilters_ignores_traceId (records : List ParsedLogRecord)
    (filters : LogFilterState) (t : String) :
    applyFilters records { filters with traceId := t }
      = applyFilters records filters := rfl

-- ─── Record-id claims ───────────────────────────────────────────────

/-- The id depends on the raw body only through its first 200 characters:
the hashed template truncates with `rawBody.slice(0, 200)`. -/
lemma generateLogRecordId_take200 (t : String) (sev : Int) (b₁ b₂ f : String)
    (l : Nat) (h : b₁.toList.take 200 = b₂.toList.take 200) :
    generateLogRecordId t sev b₁ f l = generateLogRecordId t sev b₂ f l := by
  unfold generateLogRecordId
  rw [h]

lemma base36Char_ne_dash : ∀ d, d < 36 → base36Char d ≠ Char.ofNat 45 := by decide

lemma natToBase36Aux_congr (n : Nat) : ∀ f₁ f₂, n < f₁ → n < f₂ →
    natToBase36Aux f₁ n = natToBase36Aux f₂ n := by
  induction n using Nat.strong_induction_on with
  | _ n ih =>
    intro f₁ f₂ h₁ h₂
    obtain ⟨fa, rfl⟩ : ∃ fa, f₁ = fa + 1 := ⟨f₁ - 1, by omega⟩
    obtain ⟨fb, rfl⟩ : ∃ fb, f₂ = fb + 1 := ⟨f₂ - 1, by omega⟩
    simp only [natToBase36Aux]
    split_ifs with h
    · rfl
    · rw [ih (n / 36) (Nat.div_lt_self (by omega) (by omega)) fa fb
        (by omega) (by omega)]

/-- Unfolding equation of `natToBase36`, matching JS `toString(36)`. -/
lemma natToBase36_eq (n : Nat) :
    natToBase36 n = if n < 36 then [base36Char n]
      else natToBase36 (n / 36) ++ [base36Char (n % 36)] := by
  rw [show natToBase36 n = (if n < 36 then [base36Char n]
    else natToBase36Aux n (n / 36) ++ [base36Char (n % 36)]) from rfl]
  split_ifs with h
  · rfl
  · rw [natToBase36Aux_congr (n / 36) n (n / 36 + 1) (by omega) (by omega)]
    rfl

lemma natToBase36_not_dash (n : Nat) : Char.ofNat 45 ∉ natToBase36 n := by
  induction n using Nat.strong_induction_on with
  | _ n ih =>
    rw [natToBase36_eq]
    split_ifs with h
    · intro hmem
      rw [List.mem_singleton] at hmem
      exact base36Char_ne_dash n h hmem.symm
    · intro hmem
      rcases List.mem_append.mp hmem with h1 | h2
      · exact ih (n / 36) (Nat.div_lt_self (by omega) (by omega)) h1
      · rw [List.mem_singleton] at h2
        exact base36Char_ne_dash (n % 36) (Nat.mod_lt _ (by omega)) h2.symm

lemma base36Val_char : ∀ d, d < 36 → base36Val (base36Char d) = d := by decide

lemma unbase36_append (xs : List Char) (c : Char) :
    unbase36 (xs ++ [c]) = 36 * unbase36 xs + base36Val c := by
  unfold unbase36
  rw [List.foldl_append]
  rfl

lemma unbase36_natToBase36 (n : Nat) : unbase36 (natToBase36 n) = n := by
  induction n using Nat.strong_induction_on with
  | _ n ih =>
    rw [natToBase36_eq]
    split_ifs with h
    · show 36 * 0 + base36Val (base36Char n) = n
      rw [base36Val_char n h]
      omega
    · rw [unbase36_append, ih (n / 36) (Nat.div_lt_self (by omega) (by omega)),
        base36Val_char (n % 36) (Nat.mod_lt _ (by omega))]
      omega

lemma natToBase36_inj {m n : Nat} (h : natToBase36 m = natToBase36 n) : m = n := by
  have hm := unbase36_natToBase36 m
  rw [h, unbase36_natToBase36] at hm
  exact hm.symm

lemma append_dash_inj : ∀ (a : List Char) (c b d : List Char),
    Char.ofNat 45 ∉ a → Char.ofNat 45 ∉ c →
    a ++ Char.ofNat 45 :: b = c ++ Char.ofNat 45 :: d → a = c ∧ b = d := by
  intro a
  induction a with
  | nil =>
    intro c b d _ha hc h
    cases c with
    | nil => simpa using h
    | cons y ys =>
      rw [List.nil_append, List.cons_append, List.cons.injEq] at h
      exact absurd (h.1 ▸ List.mem_cons_self y ys) hc
  | cons x xs ih =>
    intro c b d ha hc h
    cases c with
    | nil =>
      rw [List.nil_append, List.cons_append, List.cons.injEq] at h
      exact absurd (h.1 ▸ List.mem_cons_self x xs) ha
    | cons y ys =>
      rw [List.cons_append, List.cons_append, List.cons.injEq] at h
      have hrec := ih ys b d (fun hm => ha (List.mem_cons_of_mem x hm))
        (fun hm => hc (List.mem_cons_of_mem y hm)) h.2
      exact ⟨by rw [h.1, hrec.1], hrec.2⟩

lemma generateLogRecordId_line_inj (t : String) (sev : Int) (b f : String)
    (l₁ l₂ : Nat) (h : generateLogRecordId t sev b f l₁ = generateLogRecordId t sev b f l₂) :
    l₁ = l₂ := by
  unfold generateLogRecordId at h
  have hd := congrArg String.data h
  simp only [show ∀ x y : String, (x ++ y).data = x.data ++ y.data from fun x y => rfl]
    at hd
  have hd' : natToBase36 (fnv1a ((f ++ ":" ++ toString l₁ ++ ":" ++ t ++ ":"
        ++ toString sev ++ ":" ++ String.mk (b.toList.take 200)).toList.map Char.toNat))
        ++ Char.ofNat 45 :: natToBase36 l₁
      = natToBase36 (fnv1a ((f ++ ":" ++ toString l₂ ++ ":" ++ t ++ ":"
        ++ toString sev ++ ":" ++ String.mk (b.toList.take 200)).toList.map Char.toNat))
        ++ Char.ofNat 45 :: natToBase36 l₂ := by
    simpa using hd
  have hsplit := append_dash_inj _ _ _ _ (natToBase36_not_dash _)
    (natToBase36_not_dash _) hd'
  exact natToBase36_inj hsplit.2

/-- Counterexample to C8 as stated: changing `rawBody` does not always
change the id.  `bodyA` and `bodyB` differ (at position 201) yet produce
the same id, because the hashed template truncates the body to its first
200 characters. -/
theorem generateLogRecordId_rawBody_cex :
    bodyA ≠ bodyB
  ∧ generateLogRecordId "1" 9 bodyA "app.log" 3
      = generateLogRecordId "1" 9 bodyB "app.log" 3 :=
  ⟨by decide, generateLogRecordId_take200 "1" 9 bodyA bodyB "app.log" 3 (by decide)⟩

/-- C8 (amended): the record id is deterministic — it is a pure function of
(sourceFile, lineNumber, timeUnixNano, severityNumber, rawBody), and in
fact depends on `rawBody` only through its first 200 characters, so two
bodies agreeing there collide by design; changing `lineNumber` while
holding the other inputs fixed always changes the id (the id's base-36
suffix after its single dash decodes the line number). -/
theorem generateLogRecordId_amended :
    (∀ (t : String) (sev : Int) (b₁ b₂ f : String) (l : Nat),
        b₁.toList.take 200 = b₂.toList.take 200 →
        generateLogRecordId t sev b₁ f l = generateLogRecordId t sev b₂ f l)
  ∧ (∀ (t : String) (sev : Int) (b f : String) (l₁ l₂ : Nat),
        l₁ ≠ l₂ →
        generateLogRecordId t sev b f l₁ ≠ generateLogRecordId t sev b f l₂) :=
  ⟨fun t sev b₁ b₂ f l h => generateLogRecordId_take200 t sev b₁ b₂ f l h,
   fun t sev b f l₁ l₂ hne h => hne (generateLogRecordId_line_inj t sev b f l₁ l₂ h)⟩

/-- Witness for C8 (amended) at concrete inputs. -/
theorem generateLogRecordId_amended_witness :
    generateLogRecordId "7" 5 (String.mk (List.replicate 200 'b' ++ ['p']))
        "w.log" 2
      = generateLogRecordId "7" 5 (String.mk (List.replicate 200 'b' ++ ['q']))
        "w.log" 2
  ∧ generateLogRecordId "123" 9 "body" "file.json" 1
      ≠ generateLogRecordId "123" 9 "body" "file.json" 2 :=
  ⟨generateLogRecordId_amended.1 "7" 5 _ _ "w.log" 2 (by decide),
   generateLogRecordId_amended.2 "123" 9 "body" "file.json" 1 2 (by decide)⟩

-- ─── Aggregation-store claims ───────────────────────────────────────

lemma applyChunk_def (existing chunk : List ParsedLogRecord) :
    applyChunk existing chunk
      = sortByTimestamp (existing ++ chunk.filter
          (fun r => decide (r.id ∉ existing.map (·.id)))) := rfl

lemma sortByTimestamp_sorted (l : List ParsedLogRecord) :
    List.Sorted tsLE (sortByTimestamp l) :=
  List.sorted_insertionSort tsLE l

lemma sortByTimestamp_perm (l : List ParsedLogRecord) :
    List.Perm (sortByTimestamp l) l :=
  List.perm_insertionSort tsLE l

lemma sortByTimestamp_eq_of_sorted {l : List ParsedLogRecord}
    (h : List.Sorted tsLE l) : sortByTimestamp l = l :=
  List.Sorted.insertionSort_eq h

lemma applyChunk_sorted (existing chunk : List ParsedLogRecord) :
    List.Sorted tsLE (applyChunk existing chunk) := by
  rw [applyChunk_def]
  exact sortByTimestamp_sorted _

/-- After one chunk application, every id of the chunk occurs in the store:
the record was either newly appended or filtered out precisely because its
id was already present. -/
lemma applyChunk_mem_ids (existing chunk : List ParsedLogRecord) :
    ∀ r ∈ chunk, r.id ∈ (applyChunk existing chunk).map (·.id) := by
  intro r hr
  rw [applyChunk_def]
  have hperm := (sortByTimestamp_perm (existing ++ chunk.filter
    (fun x => decide (x.id ∉ existing.map (·.id))))).map (·.id)
  rw [hperm.mem_iff, List.map_append, List.mem_append]
  by_cases hex : r.id ∈ existing.map (·.id)
  · exact Or.inl hex
  · refine Or.inr (List.mem_map.mpr ⟨r, ?_, rfl⟩)
    exact List.mem_filter.mpr ⟨hr, by simpa using hex⟩

/-- C2: dedup idempotence — applying the same chunk to the aggregation
store twice yields exactly the same record list (hence the same record
count) as applying it once: on the second application every incoming id is
already present, so nothing is appended, and re-sorting the already-sorted
store leaves it unchanged. -/
theorem applyChunk_idempotent (existing chunk : List ParsedLogRecord) :
    applyChunk (applyChunk existing chunk) chunk = applyChunk existing chunk := by
  have hfilter : chunk.filter
      (fun r => decide (r.id ∉ (applyChunk existing chunk).map (·.id))) = [] := by
    rw [List.filter_eq_nil_iff]
    intro a ha
    simp only [decide_eq_true_eq]
    exact fun hno => hno (applyChunk_mem_ids existing chunk a ha)
  rw [applyChunk_def (applyChunk existing chunk) chunk, hfilter, List.append_nil]
  exact sortByTimestamp_eq_of_sorted (applyChunk_sorted existing chunk)

/-- Counterexample to C1 as stated: a single chunk application can leave
two records with the same id in the store, because dedup filters only
against ids already in the store, not within the incoming chunk.  The
chunk here is the flattening of one envelope holding two identical log
records. -/
theorem applyChunk_dup_id_cex :
    ¬ (((applyChunk [] cexChunk).map (·.id)).Nodup) := by decide

/-- C1 (amended): after every chunk application the store is sorted
ascending by timestamp; if moreover the prior store's ids and the incoming
chunk's ids are each pairwise distinct, the resulting store's ids are
pairwise distinct (records whose id already exists in the store are
filtered out, but duplicates arriving inside one chunk are not);
`removeFile` preserves sortedness and id-distinctness, and `clearAll`
trivially re-establishes both. -/
theorem store_invariants_amended :
    (∀ existing chunk : List ParsedLogRecord,
        List.Sorted tsLE (applyChunk existing chunk))
  ∧ (∀ existing chunk : List ParsedLogRecord,
        (existing.map (·.id)).Nodup → (chunk.map (·.id)).Nodup →
        ((applyChunk existing chunk).map (·.id)).Nodup)
  ∧ (∀ (records : List ParsedLogRecord) (f : String),
        List.Sorted tsLE records → List.Sorted tsLE (removeFile records f))
  ∧ (∀ (records : List ParsedLogRecord) (f : String),
        (records.map (·.id)).Nodup → ((removeFile records f).map (·.id)).Nodup)
  ∧ (List.Sorted tsLE clearAllRecords ∧ (clearAllRecords.map (·.id)).Nodup) := by
  refine ⟨applyChunk_sorted, ?_, ?_, ?_, List.sorted_nil, List.nodup_nil⟩
  · intro ex ch hex hch
    rw [applyChunk_def]
    have hperm := (sortByTimestamp_perm (ex ++ ch.filter
      (fun x => decide (x.id ∉ ex.map (·.id))))).map (·.id)
    rw [hperm.nodup_iff, List.map_append, List.nodup_append]
    refine ⟨hex, hch.sublist (List.Sublist.map _ (List.filter_sublist _)), ?_⟩
    intro a ha hb
    rcases List.mem_map.mp hb with ⟨r, hrmem, rfl⟩
    have hnot := (List.mem_filter.mp hrmem).2
    simp only [decide_eq_true_eq] at hnot
    exact hnot ha
  · intro records f h
    exact List.Pairwise.sublist (List.filter_sublist records) h
  · intro records f h
    exact h.sublist (List.Sublist.map _ (List.filter_sublist records))

/-- Witness for C1 (amended) at a concrete store, chunk and file name. -/
theorem store_invariants_amended_witness :
    ((applyChunk [] [rA]).map (·.id)).Nodup
  ∧ List.Sorted tsLE (removeFile [rA] "other")
  ∧ ((removeFile [rA] "other").map (·.id)).Nodup :=
  ⟨store_invariants_amended.2.1 [] [rA] (by decide) (by decide),
   store_invariants_amended.2.2.1 [rA] "other" (List.sorted_singleton rA),
   store_invariants_amended.2.2.2.1 [rA] "other" (by decide)⟩

-- ─── Parser claims: completion and conservation lemmas ──────────────

/-- A non-cancelled JSONL loop run emits its events as a complete-free
prefix followed by exactly one completion event, and the chunk events
(final flush included) deliver exactly the records the run accumulates:
`chunkRecTotal + totalRecords-so-far = reported-total + buffered`. -/
lemma jsonlLoop_complete_spec (iso : String → Option Int)
    (bj : String → Option BodyInner) (fname : String) (C T : Nat)
    (lines : List LineParse) :
    ∀ i p tr te buf be, ∃ evs R E,
      jsonlLoop iso bj fname C T false lines i p tr te buf be
          = evs ++ [WorkerEvent.complete R E]
        ∧ evs.filter isCompleteEv = []
        ∧ chunkRecTotal (evs ++ [WorkerEvent.complete R E]) + tr
            = R + buf.length := by
  induction lines with
  | nil =>
    intro i p tr te buf be
    by_cases hcond : 0 < buf.length ∨ 0 < be
    · refine ⟨[.chunk buf be], tr, te, ?_, rfl, ?_⟩
      · simp only [jsonlLoop, if_pos hcond]
      · simp [chunkRecTotal]
        omega
    · refine ⟨[], tr, te, ?_, rfl, ?_⟩
      · simp only [jsonlLoop, if_neg hcond]
      · have hb : buf.length = 0 := by omega
        simp [chunkRecTotal, hb]
  | cons l rest ih =>
    intro i p tr te buf be
    cases l with
    | blank =>
      obtain ⟨evs, R, E, h1, h2, h3⟩ := ih (i + 1) (p + 1) tr te buf be
      refine ⟨evs, R, E, ?_, h2, h3⟩
      simp only [jsonlLoop]
      rw [if_neg (by simp)]
      exact h1
    | err =>
      by_cases hemit : C ≤ buf.length
      · obtain ⟨evs, R, E, h1, h2, h3⟩ := ih (i + 1) (p + 1) tr (te + 1) [] 0
        refine ⟨.chunk buf (be + 1)
            :: .progress T (p + 1) (roundPct100 (p + 1) T) :: evs, R, E, ?_, ?_, ?_⟩
        · simp only [jsonlLoop]
          rw [if_neg (by simp), if_pos hemit, h1]
          rfl
        · simp [isCompleteEv, h2]
        · simp [chunkRecTotal] at h3 ⊢
          omega
      · obtain ⟨evs, R, E, h1, h2, h3⟩ := ih (i + 1) (p + 1) tr (te + 1) buf (be + 1)
        refine ⟨evs, R, E, ?_, h2, h3⟩
        simp only [jsonlLoop]
        rw [if_neg (by simp), if_neg hemit]
        exact h1
    | env e =>
      by_cases hemit : C ≤ (buf ++ flattenEnvelope iso bj e fname (i + 1)).length
      · obtain ⟨evs, R, E, h1, h2, h3⟩ := ih (i + 1) (p + 1)
          (tr + (flattenEnvelope iso bj e fname (i + 1)).length) te [] 0
        refine ⟨.chunk (buf ++ flattenEnvelope iso bj e fname (i + 1)) be
            :: .progress T (p + 1) (roundPct100 (p + 1) T) :: evs, R, E, ?_, ?_, ?_⟩
        · simp only [jsonlLoop]
          rw [if_neg (by simp), if_pos hemit, h1]
          rfl
        · simp [isCompleteEv, h2]
        · simp [chunkRecTotal] at h3 ⊢
          omega
      · obtain ⟨evs, R, E, h1, h2, h3⟩ := ih (i + 1) (p + 1)
          (tr + (flattenEnvelope iso bj e fname (i + 1)).length) te
          (buf ++ flattenEnvelope iso bj e fname (i + 1)) be
        refine ⟨evs, R, E, ?_, h2, ?_⟩
        · simp only [jsonlLoop]
          rw [if_neg (by simp), if_neg hemit]
          exact h1
        · simp only [List.length_append] at h3
          omega

/-- Chunk-size bound of the JSONL loop: starting from a buffer below the
chunk size, every emitted chunk carries at most `C - 1` records buffered
from earlier lines plus the records of the line that triggered it (at most
`K` when every line of the input flattens to at most `K` records). -/
lemma jsonlLoop_chunk_le (iso : String → Option Int)
    (bj : String → Option BodyInner) (fname : String) (C T K : Nat)
    (cancelled : Bool) (hC : 1 ≤ C) (lines : List LineParse) :
    ∀ i p tr te buf be, buf.length < C →
      (∀ e, LineParse.env e ∈ lines →
        ∀ m, (flattenEnvelope iso bj e fname m).length ≤ K) →
      ∀ rs pe, WorkerEvent.chunk rs pe
          ∈ jsonlLoop iso bj fname C T cancelled lines i p tr te buf be →
        rs.length ≤ C - 1 + K := by
  induction lines with
  | nil =>
    intro i p tr te buf be hbuf _hK rs pe hmem
    simp only [jsonlLoop] at hmem
    rcases List.mem_append.mp hmem with h1 | h2
    · split_ifs at h1 with hcond
      · rw [List.mem_singleton] at h1
        cases h1
        omega
      · simp at h1
    · simp at h2
  | cons l rest ih =>
    intro i p tr te buf be hbuf hK rs pe hmem
    have hKrest : ∀ e, LineParse.env e ∈ rest →
        ∀ m, (flattenEnvelope iso bj e fname m).length ≤ K :=
      fun e he m => hK e (List.mem_cons_of_mem _ he) m
    cases l with
    | blank =>
      simp only [jsonlLoop] at hmem
      split_ifs at hmem with hcancel
      · simp at hmem
      · exact ih (i + 1) (p + 1) tr te buf be hbuf hKrest rs pe hmem
    | err =>
      simp only [jsonlLoop] at hmem
      split_ifs at hmem with hcancel hemit
      · simp at hmem
      · omega
      · exact ih (i + 1) (p + 1) tr (te + 1) buf (be + 1) hbuf hKrest rs pe hmem
    | env e =>
      have hrecs : (flattenEnvelope iso bj e fname (i + 1)).length ≤ K :=
        hK e (List.mem_cons_self _ _) (i + 1)
      simp only [jsonlLoop] at hmem
      split_ifs at hmem with hcancel hemit
      · simp at hmem
      · rcases List.mem_cons.mp hmem with h1 | hmem'
        · cases h1
          simp only [List.length_append]
          omega
        · rcases List.mem_cons.mp hmem' with h2 | hmem''
          · cases h2
          · exact ih (i + 1) (p + 1)
              (tr + (flattenEnvelope iso bj e fname (i + 1)).length) te [] 0
              (by simpa using hC) hKrest rs pe hmem''
      · refine ih (i + 1) (p + 1)
          (tr + (flattenEnvelope iso bj e fname (i + 1)).length) te
          (buf ++ flattenEnvelope iso bj e fname (i + 1)) be ?_ hKrest rs pe hmem
        simp only [List.length_append] at hemit ⊢
        omega

/-- Chunk-size bound and buffer invariant of the single-JSON record loop:
chunks are emitted exactly at the chunk size, so every chunk is at most `C`
records and the remaining buffer stays below `C`. -/
lemma pushRecords_chunk_le (C tE eI : Nat) (hC : 1 ≤ C) :
    ∀ (recs buf : List ParsedLogRecord), buf.length < C →
      ((∀ rs pe, WorkerEvent.chunk rs pe ∈ (pushRecords C tE eI buf recs).1 →
          rs.length ≤ C)
        ∧ (pushRecords C tE eI buf recs).2.length < C) := by
  intro recs
  induction recs with
  | nil =>
    intro buf hbuf
    exact ⟨fun rs pe hmem => by simp [pushRecords] at hmem, by
      simpa [pushRecords] using hbuf⟩
  | cons r rest ih =>
    intro buf hbuf
    by_cases hemit : C ≤ (buf ++ [r]).length
    · have hrest := ih [] (by simpa using hC)
      constructor
      · intro rs pe hmem
        simp only [pushRecords, if_pos hemit] at hmem
        rcases List.mem_cons.mp hmem with h1 | hmem'
        · cases h1
          simp only [List.length_append, List.length_cons, List.length_nil]
          omega
        · rcases List.mem_cons.mp hmem' with h2 | hmem''
          · cases h2
          · exact hrest.1 rs pe hmem''
      · simp only [pushRecords, if_pos hemit]
        exact hrest.2
    · have hbuf' : (buf ++ [r]).length < C := by omega
      have hrest := ih (buf ++ [r]) hbuf'
      constructor
      · intro rs pe hmem
        simp only [pushRecords, if_neg hemit] at hmem
        exact hrest.1 rs pe hmem
      · simp only [pushRecords, if_neg hemit]
        exact hrest.2

/-- Chunk-size bound of the single-JSON envelope loop. -/
lemma envLoop_chunk_le (iso : String → Option Int)
    (bj : String → Option BodyInner) (fname : String) (C tE : Nat)
    (cancelled : Bool) (hC : 1 ≤ C) :
    ∀ (envs : List Envelope) (idx : Nat) (buf : List ParsedLogRecord)
      (tr : Nat), buf.length < C →
      ∀ rs pe, WorkerEvent.chunk rs pe
          ∈ envLoop iso bj fname C tE cancelled envs idx buf tr →
        rs.length ≤ C := by
  intro envs
  induction envs with
  | nil =>
    intro idx buf tr hbuf rs pe hmem
    simp only [envLoop] at hmem
    rcases List.mem_append.mp hmem with h1 | h2
    · split_ifs at h1 with hcond
      · rw [List.mem_singleton] at h1
        cases h1
        omega
      · simp at h1
    · simp at h2
  | cons e rest ih =>
    intro idx buf tr hbuf rs pe hmem
    simp only [envLoop] at hmem
    split_ifs at hmem with hcancel
    · simp at hmem
    · have hpush := pushRecords_chunk_le C tE idx hC
        (flattenEnvelope iso bj e fname (idx + 1)) buf hbuf
      rcases List.mem_append.mp hmem with h1 | h2
      · exact hpush.1 rs pe h1
      · exact ih (idx + 1) _ _ hpush.2 rs pe h2

/-- The flattener emits exactly one record per OTLP log record, regardless
of file name and line number. -/
lemma flattenEnvelope_length (iso : String → Option Int)
    (bj : String → Option BodyInner) (e : Envelope) (f : String) (n : Nat) :
    (flattenEnvelope iso bj e f n).length = envRecCount e := by
  unfold flattenEnvelope envRecCount
  rw [List.flatMap_def, List.length_flatten, List.map_map]
  apply congrArg List.sum
  apply List.map_congr_left
  intro rl _
  simp only [Function.comp, List.flatMap_def, List.length_flatten, List.map_map]
  apply congrArg List.sum
  apply List.map_congr_left
  intro sl _
  simp [Function.comp]

/-- The single-JSON record loop emits only chunk and progress events. -/
lemma pushRecords_no_complete (C tE eI : Nat) :
    ∀ (recs buf : List ParsedLogRecord),
      (pushRecords C tE eI buf recs).1.filter isCompleteEv = [] := by
  intro recs
  induction recs with
  | nil => intro buf; simp [pushRecords]
  | cons r rest ih =>
    intro buf
    simp only [pushRecords]
    split_ifs with hemit
    · simp [List.filter_cons, isCompleteEv, ih []]
    · exact ih (buf ++ [r])

/-- Chunk record totals add up over event-list concatenation. -/
lemma chunkRecTotal_append (a b : List WorkerEvent) :
    chunkRecTotal (a ++ b) = chunkRecTotal a + chunkRecTotal b := by
  simp [chunkRecTotal]

/-- The single-JSON record loop loses no record: the records carried by its
chunk events plus the remaining buffer are exactly the incoming buffer
plus the pushed records. -/
lemma pushRecords_conservation (C tE eI : Nat) :
    ∀ (recs buf : List ParsedLogRecord),
      chunkRecTotal (pushRecords C tE eI buf recs).1
          + (pushRecords C tE eI buf recs).2.length
        = buf.length + recs.length := by
  intro recs
  induction recs with
  | nil => intro buf; simp [pushRecords, chunkRecTotal]
  | cons r rest ih =>
    intro buf
    simp only [pushRecords]
    split_ifs with hemit
    · have hr := ih []
      simp only [chunkRecTotal, List.map_cons, List.sum_cons,
        List.length_append, List.length_cons, List.length_nil] at hr ⊢
      omega
    · have hr := ih (buf ++ [r])
      simp only [chunkRecTotal, List.length_append, List.length_cons,
        List.length_nil] at hr ⊢
      omega

/-- A non-cancelled single-JSON envelope loop emits a complete-free prefix
followed by exactly one completion event, and its chunk events (final
flush included) deliver exactly the records the run accumulates. -/
lemma envLoop_complete_spec (iso : String → Option Int)
    (bj : String → Option BodyInner) (fname : String) (C tE : Nat) :
    ∀ (envs : List Envelope) (idx : Nat) (buf : List ParsedLogRecord)
      (tr : Nat), ∃ evs R E,
      envLoop iso bj fname C tE false envs idx buf tr
          = evs ++ [WorkerEvent.complete R E]
        ∧ evs.filter isCompleteEv = []
        ∧ chunkRecTotal (evs ++ [WorkerEvent.complete R E]) + tr
            = R + buf.length := by
  intro envs
  induction envs with
  | nil =>
    intro idx buf tr
    by_cases hcond : 0 < buf.length
    · refine ⟨[.chunk buf 0], tr, 0, by simp only [envLoop, if_pos hcond], rfl, ?_⟩
      simp [chunkRecTotal]
      omega
    · refine ⟨[], tr, 0, by simp only [envLoop, if_neg hcond], rfl, ?_⟩
      have hb : buf.length = 0 := by omega
      simp [chunkRecTotal, hb]
  | cons e rest ih =>
    intro idx buf tr
    obtain ⟨evs, R, E, h1, h2, h3⟩ := ih (idx + 1)
      (pushRecords C tE idx buf (flattenEnvelope iso bj e fname (idx + 1))).2
      (tr + (flattenEnvelope iso bj e fname (idx + 1)).length)
    refine ⟨(pushRecords C tE idx buf
        (flattenEnvelope iso bj e fname (idx + 1))).1 ++ evs, R, E, ?_, ?_, ?_⟩
    · simp only [envLoop]
      rw [if_neg (by simp), h1, List.append_assoc]
    · rw [List.filter_append, h2, pushRecords_no_complete, List.append_nil]
    · have hc := pushRecords_conservation C tE idx
        (flattenEnvelope iso bj e fname (idx + 1)) buf
      rw [List.append_assoc, chunkRecTotal_append]
      omega

-- ─── Chunk-size claim (C3) ──────────────────────────────────────────

/-- Counterexample to C3 as stated: with chunk size 1, a JSONL line whose
envelope flattens to two records is emitted as a single chunk of two
records, exceeding the configured chunk size — the JSONL path appends a
whole line's records before checking the threshold. -/
theorem chunk_size_cex :
    WorkerEvent.chunk cexChunk 0
      ∈ parseJsonl isoNone bjNone "f" [.env cexEnv2] 1 false
    ∧ 1 < cexChunk.length := ⟨by decide, by decide⟩

/-- C3 (amended): on the single/concatenated-JSON path every emitted chunk
has at most `chunkSize` records (the threshold is checked after each
record); on the JSONL path a chunk consists of at most `chunkSize - 1`
records buffered from earlier lines plus all records of one final line —
so it can exceed `chunkSize` only when a single line flattens to several
records, and is bounded by `chunkSize - 1 + K` when every line yields at
most `K` records; on both paths the final partial batch is always
flushed: the chunk events of a non-cancelled run, JSONL or
single/concatenated-JSON, deliver exactly the record total reported by
its completion event. -/
theorem chunk_size_amended :
    (∀ iso bj fname (lines : List LineParse) (C K : Nat), 1 ≤ C →
        (∀ e, LineParse.env e ∈ lines →
          ∀ m, (flattenEnvelope iso bj e fname m).length ≤ K) →
        ∀ rs pe, WorkerEvent.chunk rs pe ∈ parseJsonl iso bj fname lines C false →
          rs.length ≤ C - 1 + K)
  ∧ (∀ iso bj J fname content (C : Nat), 1 ≤ C →
        ∀ rs pe, WorkerEvent.chunk rs pe
            ∈ parseSingleJson iso bj J fname content C false →
          rs.length ≤ C)
  ∧ (∀ iso bj fname (lines : List LineParse) (C : Nat), ∃ R E,
        (parseJsonl iso bj fname lines C false).getLast?
            = some (WorkerEvent.complete R E)
        ∧ chunkRecTotal (parseJsonl iso bj fname lines C false) = R)
  ∧ (∀ iso bj J fname content (C : Nat), ∃ R E,
        (parseSingleJson iso bj J fname content C false).getLast?
            = some (WorkerEvent.complete R E)
        ∧ chunkRecTotal (parseSingleJson iso bj J fname content C false) = R) := by
  refine ⟨?_, ?_, ?_, ?_⟩
  · intro iso bj fname lines C K hC hK rs pe hmem
    exact jsonlLoop_chunk_le iso bj fname C lines.length K false hC lines
      0 0 0 0 [] 0 (by simpa using hC) hK rs pe hmem
  · intro iso bj J fname content C hC rs pe hmem
    simp only [parseSingleJson] at hmem
    rcases List.mem_cons.mp hmem with h1 | hmem'
    · cases h1
    · cases hJ : singleJsonEnvelopes J content with
      | none =>
        rw [hJ] at hmem'
        rcases List.mem_cons.mp hmem' with h2 | h3
        · cases h2
          simp
        · simp at h3
      | some envs =>
        rw [hJ] at hmem'
        rcases List.mem_cons.mp hmem' with h2 | h3
        · cases h2
        · exact envLoop_chunk_le iso bj fname C envs.length false hC envs
            0 [] 0 (by simpa using hC) rs pe h3
  · intro iso bj fname lines C
    obtain ⟨evs, R, E, h1, _h2, h3⟩ := jsonlLoop_complete_spec iso bj fname C
      lines.length lines 0 0 0 0 [] 0
    refine ⟨R, E, ?_, ?_⟩
    · rw [show parseJsonl iso bj fname lines C false
          = jsonlLoop iso bj fname C lines.length false lines 0 0 0 0 [] 0 from rfl,
        h1, List.getLast?_concat]
    · rw [show parseJsonl iso bj fname lines C false
          = jsonlLoop iso bj fname C lines.length false lines 0 0 0 0 [] 0 from rfl,
        h1]
      simpa using h3
  · intro iso bj J fname content C
    cases hJ : singleJsonEnvelopes J content with
    | none =>
      refine ⟨0, 1, ?_, ?_⟩
      · simp only [parseSingleJson, hJ]
        rfl
      · simp only [parseSingleJson, hJ]
        rfl
    | some envs =>
      obtain ⟨evs, R, E, h1, _h2, h3⟩ := envLoop_complete_spec iso bj fname C
        envs.length envs 0 [] 0
      refine ⟨R, E, ?_, ?_⟩
      · simp only [parseSingleJson, hJ]
        rw [h1]
        rw [show WorkerEvent.progress 1 0 10 :: WorkerEvent.progress 1 0 50
              :: (evs ++ [WorkerEvent.complete R E])
            = (WorkerEvent.progress 1 0 10 :: WorkerEvent.progress 1 0 50 :: evs)
              ++ [WorkerEvent.complete R E] from rfl,
          List.getLast?_concat]
      · simp only [parseSingleJson, hJ]
        rw [h1]
        simp [chunkRecTotal] at h3 ⊢
        omega

/-- Witness for C3 (amended): the two-record chunk of `chunk_size_cex`
satisfies the amended bounds. -/
theorem chunk_size_amended_witness :
    cexChunk.length ≤ 3 - 1 + 2 ∧ cexChunk.length ≤ 5 :=
  ⟨chunk_size_amended.1 isoNone bjNone "f" [.env cexEnv2] 3 2 (by omega)
      (by
        intro e he m
        simp only [List.mem_singleton] at he
        cases he
        rw [flattenEnvelope_length]
        decide)
      cexChunk 0 (by decide),
   chunk_size_amended.2.1 isoNone bjNone jObjCex "f" "x" 5 (by omega)
      cexChunk 0 (by decide)⟩

-- ─── Zero-envelope claim (C4) ───────────────────────────────────────

/-- Counterexample to C4 as stated: on this input zero envelopes are
extracted via the split-and-parse fallback (the splitter finds one
candidate block, which fails to parse), yet the parser emits no chunk
event at all and completes with zero parse errors, instead of the claimed
single error chunk. -/
theorem zero_envelope_cex :
    singleJsonEnvelopes jNone cexContent = some []
    ∧ parseSingleJson isoNone bjNone jNone "f" cexContent 500 false
        = [.progress 1 0 10, .progress 1 0 50, .complete 0 0] :=
  ⟨by decide, by decide⟩

/-- C4 (amended): the single-error-chunk failure signal fires exactly on
the early-return paths — a direct parse yielding neither an array nor an
object with `resourceLogs`, or a failed direct parse with no candidate
blocks; there the parser emits exactly one chunk with parse-error count 1
followed by a completion reporting zero records.  When instead candidates
exist but none parses to an envelope (or the direct parse yields an empty
array), the parser emits no chunk and completes with zero records and zero
parse errors. -/
theorem zero_envelope_amended :
    (∀ iso bj J fname content (C : Nat) (cancelled : Bool),
        singleJsonEnvelopes J content = none →
        parseSingleJson iso bj J fname content C cancelled
          = [.progress 1 0 10, .chunk [] 1, .complete 0 1])
  ∧ (∀ iso bj J fname content (C : Nat) (cancelled : Bool),
        singleJsonEnvelopes J content = some [] →
        parseSingleJson iso bj J fname content C cancelled
          = [.progress 1 0 10, .progress 1 0 50, .complete 0 0]) := by
  constructor
  · intro iso bj J fname content C cancelled h
    simp [parseSingleJson, h]
  · intro iso bj J fname content C cancelled h
    simp [parseSingleJson, h, envLoop]

/-- Witness for C4 (amended) on both paths. -/
theorem zero_envelope_amended_witness :
    parseSingleJson isoNone bjNone jNone "f" "x" 500 false
      = [.progress 1 0 10, .chunk [] 1, .complete 0 1]
  ∧ parseSingleJson isoNone bjNone jEmptyArr "f" "y" 500 false
      = [.progress 1 0 10, .progress 1 0 50, .complete 0 0] :=
  ⟨zero_envelope_amended.1 isoNone bjNone jNone "f" "x" 500 false (by decide),
   zero_envelope_amended.2 isoNone bjNone jEmptyArr "f" "y" 500 false (by decide)⟩

-- ─── Cancellation claim (C5) ────────────────────────────────────────

/-- Counterexample to C5 as stated: a single-JSON job whose cancellation
was requested before job start still emits two progress events (10% and
50%), because the single-JSON path polls cancellation only inside the
envelope loop, after those emissions — the observed event count for the
cancelled job is not zero. -/
theorem cancellation_cex :
    parseSingleJson isoNone bjNone jObjCex "f" "x" 500 true
      = [.progress 1 0 10, .progress 1 0 50]
    ∧ parseSingleJson isoNone bjNone jObjCex "f" "x" 500 true
        ≠ ([] : List WorkerEvent) := ⟨by decide, by decide⟩

/-- C5 (amended): a JSONL job cancelled before start emits no events at all
(the poll at line index 0 fires before any emission); a single-JSON job
cancelled before start still emits its two leading progress events but no
chunk and no completion, provided at least one envelope was extracted;
and every non-cancelled job, on either path, emits exactly one completion
event, always last. -/
theorem cancellation_amended :
    (∀ iso bj fname (lines : List LineParse) (C : Nat), lines ≠ [] →
        parseJsonl iso bj fname lines C true = [])
  ∧ (∀ iso bj J fname content (C : Nat) (envs : List Envelope),
        singleJsonEnvelopes J content = some envs → envs ≠ [] →
        parseSingleJson iso bj J fname content C true
          = [.progress 1 0 10, .progress 1 0 50])
  ∧ (∀ iso bj fname (lines : List LineParse) (C : Nat), ∃ evs R E,
        parseJsonl iso bj fname lines C false
            = evs ++ [WorkerEvent.complete R E]
        ∧ evs.filter isCompleteEv = [])
  ∧ (∀ iso bj J fname content (C : Nat), ∃ evs R E,
        parseSingleJson iso bj J fname content C false
            = evs ++ [WorkerEvent.complete R E]
        ∧ evs.filter isCompleteEv = []) := by
  refine ⟨?_, ?_, ?_, ?_⟩
  · intro iso bj fname lines C hne
    cases lines with
    | nil => exact absurd rfl hne
    | cons l rest => simp [parseJsonl, jsonlLoop]
  · intro iso bj J fname content C envs h hne
    cases envs with
    | nil => exact absurd rfl hne
    | cons e rest => simp [parseSingleJson, h, envLoop]
  · intro iso bj fname lines C
    obtain ⟨evs, R, E, h1, h2, _h3⟩ := jsonlLoop_complete_spec iso bj fname C
      lines.length lines 0 0 0 0 [] 0
    exact ⟨evs, R, E, h1, h2⟩
  · intro iso bj J fname content C
    cases hJ : singleJsonEnvelopes J content with
    | none =>
      refine ⟨[.progress 1 0 10, .chunk [] 1], 0, 1, ?_, rfl⟩
      simp [parseSingleJson, hJ]
    | some envs =>
      obtain ⟨evs, R, E, h1, h2, _h3⟩ := envLoop_complete_spec iso bj fname C
        envs.length envs 0 [] 0
      refine ⟨.progress 1 0 10 :: .progress 1 0 50 :: evs, R, E, ?_, ?_⟩
      · simp [parseSingleJson, hJ, h1]
      · simp [isCompleteEv, h2]

/-- Witness for C5 (amended) at concrete cancelled jobs. -/
theorem cancellation_amended_witness :
    parseJsonl isoNone bjNone "f" [.blank] 1 true = []
  ∧ parseSingleJson isoNone bjNone jObjCex "f" "x" 1 true
      = [.progress 1 0 10, .progress 1 0 50] :=
  ⟨cancellation_amended.1 isoNone bjNone "f" [.blank] 1 (by decide),
   cancellation_amended.2.1 isoNone bjNone jObjCex "f" "x" 1 [cexEnv2]
     (by decide) (by decide)⟩

end OtelViewer
